import Mathlib

/-!
Verification of the `docgen` extraction engine of the KonwledgeRAG repository
(`pkg/docgen/parser.go`), via a shallow embedding of its string processing,
SQL statement interpreters, enumeration scanner and renderer into Lean.

Go strings are modelled as Lean `String` (a wrapper around `List Char`).
Go's byte-level scans only ever branch on ASCII characters (`(`, `)`, `,`,
space, `"`, `.`, `A`-`Z`), which in UTF-8 never occur inside a multi-byte
sequence, so a character-level model coincides with the byte-level code on
those operations.
-/

namespace Docgen

/-! ## Models of the Go `strings` / `unicode` helpers used by parser.go -/

/-- Whitespace test used by `strings.TrimSpace` / `strings.Fields`
(ASCII fragment of `unicode.IsSpace`). -/
def isSpaceGo (c : Char) : Bool :=
  c = ' ' || c = '\t' || c = '\n' || c = '\r'

/-- Drop characters satisfying `p` from both ends of a character list. -/
def trimBothBy (p : Char → Bool) (l : List Char) : List Char :=
  ((l.dropWhile p).reverse.dropWhile p).reverse

/-- `strings.TrimSpace`. -/
def goTrimSpaceL (l : List Char) : List Char := trimBothBy isSpaceGo l

/-- `strings.TrimSpace` on strings. -/
def goTrimSpace (s : String) : String := ⟨goTrimSpaceL s.data⟩

/-- `strings.Trim(s, cutset)` for a one-character cutset. -/
def trimCharL (ch : Char) (l : List Char) : List Char := trimBothBy (· = ch) l

/-- `strings.Trim(s, "\"")`: strip double quotes from both ends. -/
def trimQuotes (s : String) : String := ⟨trimCharL '"' s.data⟩

/-- `strings.Contains(s, string(ch))` for a single character. -/
def containsChar (ch : Char) (s : String) : Bool := decide (ch ∈ s.data)

/-- `strings.HasPrefix` on character lists. -/
def hasPrefixB (p s : List Char) : Bool := p.isPrefixOf s

/-- `strings.TrimPrefix` on character lists. -/
def trimPrefixL (p l : List Char) : List Char :=
  if hasPrefixB p l then l.drop p.length else l

/-- `strings.TrimPrefix` on strings. -/
def trimPrefixStr (p s : String) : String := ⟨trimPrefixL p.data s.data⟩

/-- `strings.Split(s, string(sep))` on character lists. -/
def splitOnCharL (sep : Char) : List Char → List (List Char)
  | [] => [[]]
  | c :: rest =>
    if c = sep then [] :: splitOnCharL sep rest
    else
      match splitOnCharL sep rest with
      | [] => [[c]]
      | p :: ps => (c :: p) :: ps

/-- `strings.Split(s, string(sep))` on strings. -/
def splitOnCharStr (sep : Char) (s : String) : List String :=
  (splitOnCharL sep s.data).map String.mk

/-- ASCII fragment of `strings.ToUpper` (per character). -/
def toUpperAscii (c : Char) : Char :=
  if 'a' ≤ c ∧ c ≤ 'z' then Char.ofNat (c.toNat - 32) else c

/-- ASCII fragment of `strings.ToUpper`. -/
def toUpperChars (l : List Char) : List Char := l.map toUpperAscii

/-- Inner loop of `strings.Fields`: split on whitespace runs,
accumulating the current word reversed. -/
def fieldsAux : List Char → List Char → List (List Char)
  | [], cur => if cur = [] then [] else [cur.reverse]
  | c :: rest, cur =>
    if isSpaceGo c then
      if cur = [] then fieldsAux rest [] else cur.reverse :: fieldsAux rest []
    else fieldsAux rest (c :: cur)

/-- `strings.Fields`: whitespace-separated words, empties dropped. -/
def fieldsChars (l : List Char) : List (List Char) := fieldsAux l []

/-- `strings.Index(s, pat)` starting the scan at offset `i`. -/
def indexOfFrom (pat : List Char) : List Char → Nat → Option Nat
  | s, i =>
    if hasPrefixB pat s then some i
    else
      match s with
      | [] => none
      | _ :: rest => indexOfFrom pat rest (i + 1)

/-! ## The byte-wise string order used by `sort.Strings` -/

/-- Character comparison (by code point; equals Go's byte order on UTF-8). -/
def charLtB (a b : Char) : Bool := decide (a < b)

/-- Lexicographic `≤` on character lists, the order used by `sort.Strings`. -/
def strLeAux : List Char → List Char → Bool
  | [], _ => true
  | _ :: _, [] => false
  | a :: as, b :: bs => if a = b then strLeAux as bs else charLtB a b

/-- Lexicographic `≤` on strings. -/
def strLe (a b : String) : Bool := strLeAux a.data b.data

/-- `strLe` as a relation. -/
def strLeR (a b : String) : Prop := strLe a b = true

instance : DecidableRel strLeR := fun a b => instDecidableEqBool (strLe a b) true

/-- `sort.Strings`: sort ascending in the byte-wise order. -/
def sortStrings (l : List String) : List String := List.insertionSort strLeR l

/-! ## SQL-side data model (parser.go lines 48-63) -/

/-- `FieldComment`: one column of a table (name, raw type token, comment). -/
structure FieldComment where
  FieldName : String
  FieldType : String
  Comment : String
deriving DecidableEq

/-- `TableComment`: one table (name, table-level comment, ordered columns). -/
structure TableComment where
  TableName : String
  Comment : String
  Fields : List FieldComment
deriving DecidableEq

instance : Inhabited TableComment := ⟨⟨"", "", []⟩⟩

/-- The `dbComments map[string]TableComment` registry, modelled as an
association list with unique keys; Go map assignment replaces the value
bound to an existing key. -/
abbrev Reg : Type := List (String × TableComment)

/-- Go map indexing `p.dbComments[k]` (with the `ok` flag as `Option`). -/
def regLookup (reg : Reg) (k : String) : Option TableComment :=
  match reg with
  | [] => none
  | (k', v) :: rest => if k' = k then some v else regLookup rest k

/-- Go map assignment `p.dbComments[k] = v`. -/
def regInsert (reg : Reg) (k : String) (v : TableComment) : Reg :=
  match reg with
  | [] => [(k, v)]
  | (k', v') :: rest => if k' = k then (k, v) :: rest else (k', v') :: regInsert rest k v

/-! ## `splitFields` (parser.go lines 511-543): split a column-list body on
top-level commas, keeping parenthesized content together. -/

/-- The loop of `splitFields`: `parenCount`-tracking comma split.
`cur` is the `strings.Builder` accumulator. -/
def splitFieldsCore : List Char → Int → List Char → List (List Char)
  | [], _, cur => if cur.length > 0 then [cur] else []
  | ch :: rest, d, cur =>
    if ch = '(' then splitFieldsCore rest (d + 1) (cur ++ [ch])
    else if ch = ')' then splitFieldsCore rest (d - 1) (cur ++ [ch])
    else if ch = ',' then
      if d = 0 then cur :: splitFieldsCore rest d []
      else splitFieldsCore rest d (cur ++ [ch])
    else splitFieldsCore rest d (cur ++ [ch])

/-- `splitFields` from parser.go. -/
def splitFields (s : String) : List String :=
  (splitFieldsCore s.data 0 []).map String.mk

/-- Declarative side condition: scanning `l` starting at paren depth `d`,
no comma is ever met at depth zero. -/
def noCommaAtDepth : List Char → Int → Bool
  | [], _ => true
  | ch :: rest, d =>
    if ch = '(' then noCommaAtDepth rest (d + 1)
    else if ch = ')' then noCommaAtDepth rest (d - 1)
    else if ch = ',' then
      if d = 0 then false else noCommaAtDepth rest d
    else noCommaAtDepth rest d

/-- Net paren-depth change over a character list. -/
def depthDelta : List Char → Int
  | [] => 0
  | ch :: rest =>
    (if ch = '(' then 1 else if ch = ')' then -1 else 0) + depthDelta rest

/-! ## `extractType` (parser.go lines 570-594): the type token runs to the
first space at paren depth zero. -/

/-- The loop of `extractType`. -/
def extractTypeCore : List Char → Int → List Char
  | [], _ => []
  | ch :: rest, d =>
    if ch = '(' then ch :: extractTypeCore rest (d + 1)
    else if ch = ')' then ch :: extractTypeCore rest (d - 1)
    else if ch = ' ' ∧ d = 0 then []
    else ch :: extractTypeCore rest d

/-- `extractType` from parser.go (loop, then `strings.TrimSpace`). -/
def extractType (s : String) : String :=
  goTrimSpace ⟨extractTypeCore s.data 0⟩

/-- Declarative side condition: scanning `l` from depth `d`, no space is
ever met at depth zero. -/
def noSpaceAtDepth : List Char → Int → Bool
  | [], _ => true
  | ch :: rest, d =>
    if ch = '(' then noSpaceAtDepth rest (d + 1)
    else if ch = ')' then noSpaceAtDepth rest (d - 1)
    else if ch = ' ' then
      if d = 0 then false else noSpaceAtDepth rest d
    else noSpaceAtDepth rest d

/-- `parseFieldDef`: first whitespace token is the (quote-stripped) column
name; the type is `extractType` applied to the suffix of the clause starting
at the first occurrence of the second token (`strings.Index`). Returns
`none` when the clause has fewer than two tokens (Go returns `nil`). -/
def parseFieldDef (fieldDef : String) : Option FieldComment :=
  let fd := goTrimSpaceL fieldDef.data
  match fieldsChars fd with
  | p0 :: p1 :: _ =>
    match indexOfFrom p1 fd 0 with
    | some typeStart =>
        some { FieldName := ⟨trimCharL '"' p0⟩
               FieldType := extractType ⟨fd.drop typeStart⟩
               Comment := "" }
    | none => none
  | _ => none

/-! ## `parseCreateTableByString` (parser.go lines 465-508) -/

/-- The skip test of the field loop: clauses that are `PRIMARY KEY` or
`CONSTRAINT` clauses (case-insensitively, after trimming). -/
def isStructuralClause (s : String) : Bool :=
  hasPrefixB "PRIMARY KEY".data (toUpperChars (goTrimSpaceL s.data)) ||
  hasPrefixB "CONSTRAINT".data (toUpperChars (goTrimSpaceL s.data))

/-- Body of the field loop of `parseCreateTableByString`: trim the clause,
skip empty / `PRIMARY KEY` / `CONSTRAINT` clauses, else `parseFieldDef`. -/
def clauseToField (fieldDef : String) : Option FieldComment :=
  let fd := goTrimSpace fieldDef
  if fd = "" then none
  else if isStructuralClause fieldDef then none
  else parseFieldDef fd

/-- The field loop of `parseCreateTableByString`: appends the parsed field
of each surviving clause in order. -/
def buildFields (defs : List String) : List FieldComment :=
  defs.filterMap clauseToField

/-- Table-name normalization of `parseCreateTableByString` (applied to the
regex capture): `strings.Trim(name, "\"")` then `strings.TrimPrefix(name,
"public.")`. -/
def normalizeTableName (nameCapture : String) : String :=
  trimPrefixStr "public." (trimQuotes nameCapture)

/-- `parseCreateTableByString` after its two regex extractions: given the
captured table name and the captured parenthesized body, split the body,
build the fields, and store the entry (a fresh `TableComment` whose
`Comment` is the Go zero value `""`). -/
def applyCreateTable (nameCapture body : String) (reg : Reg) : Reg :=
  let tableName := normalizeTableName nameCapture
  regInsert reg tableName
    { TableName := tableName, Comment := "", Fields := buildFields (splitFields body) }

/-- First split of a list at a given character, as (before, after). -/
def splitAtFirst (ch : Char) : List Char → Option (List Char × List Char)
  | [] => none
  | c :: rest =>
    if c = ch then some ([], rest)
    else
      match splitAtFirst ch rest with
      | some (a, b) => some (c :: a, b)
      | none => none

/-- The `fieldsRegex` of `parseCreateTableByString`: the Go pattern matches
greedily, capturing everything between the first opening parenthesis and
the last closing parenthesis after it; no match means the statement is
rejected. -/
def extractParenBody (s : List Char) : Option (List Char) :=
  match splitAtFirst '(' s with
  | none => none
  | some (_, afterOpen) =>
    match splitAtFirst ')' afterOpen.reverse with
    | none => none
    | some (_, beforeCloseRev) => some beforeCloseRev.reverse

/-- `parseCreateTableByString` given the captured table name and the raw
statement: extract the parenthesized body (an unextractable body is an
error, leaving the registry unchanged), then process it. -/
def applyCreateTableStmt (nameCapture stmt : String) (reg : Reg) : Reg :=
  match extractParenBody stmt.data with
  | some body => applyCreateTable nameCapture ⟨body⟩ reg
  | none => reg

/-! ## `parseCommentByString` (parser.go lines 596-652) -/

/-- The field-update loop of the column-comment branch: set the comment of
the first field whose name matches, leave all others unchanged (`break`). -/
def setFieldComment : List FieldComment → String → String → List FieldComment
  | [], _, _ => []
  | f :: fs, name, comment =>
    if f.FieldName = name then { f with Comment := comment } :: fs
    else f :: setFieldComment fs name comment

/-- The table branch of `parseCommentByString` (lines 613-628): find the
entry and set its comment, or create a placeholder with empty fields. -/
def applyTableComment (target2 comment : String) (reg : Reg) : Reg :=
  match regLookup reg target2 with
  | some table => regInsert reg target2 { table with Comment := comment }
  | none =>
      regInsert reg target2 { TableName := target2, Comment := comment, Fields := [] }

/-- The column branch of `parseCommentByString` (lines 630-649): set the
comment of the matching column of a known table; an unknown table means
the statement is silently dropped. -/
def applyColumnComment (tableName fieldName comment : String) (reg : Reg) : Reg :=
  match regLookup reg tableName with
  | some table =>
      regInsert reg tableName
        { table with Fields := setFieldComment table.Fields fieldName comment }
  | none => reg

/-- `parseCommentByString` after its regex extraction: `rawTarget` and
`comment` are the two captures (`matches[1]`, `matches[2]`; the comment is
already passed through `decodeComment`, the identity on valid UTF-8).
The target is quote-trimmed; a dot-free target is a table comment
(find-or-create, placeholder has empty fields); a dotted target is a column
comment (last segment = column, second-to-last = table). -/
def applyCommentStmt (rawTarget comment : String) (reg : Reg) : Reg :=
  let target := trimQuotes rawTarget
  if containsChar '.' target = false then
    applyTableComment (trimPrefixStr "public." target) comment reg
  else
    match (splitOnCharStr '.' target).reverse with
    | fieldPart :: tablePart :: _ =>
        applyColumnComment (trimQuotes (trimPrefixStr "public." tablePart))
          (trimQuotes fieldPart) comment reg
    | _ => reg

/-! ## `ToMarkdown` (parser.go lines 717-782), table section -/

/-- One column row of the table section. -/
def renderFieldRow (f : FieldComment) : String :=
  "| " ++ f.FieldName ++ " | " ++ f.FieldType ++ " | " ++
    (if f.Comment = "" then "-" else f.Comment) ++ " |\n"

/-- One table of the table section (heading plus column table). -/
def renderTable (tableName : String) (t : TableComment) : String :=
  (if t.Comment ≠ "" then "## " ++ tableName ++ "（" ++ t.Comment ++ "）\n\n"
   else "## " ++ tableName ++ "\n\n") ++
  "| 字段 | 类型 | 描述 |\n|---|---|---|\n" ++
  String.join (t.Fields.map renderFieldRow) ++ "\n"

/-- The rendering order of the table section: table names sorted ascending
(`sort.Strings(tableNames)`). -/
def renderedTableNames (reg : Reg) : List String :=
  sortStrings (reg.map Prod.fst)

/-- The table section of `ToMarkdown`: emitted only when at least one table
exists, tables in sorted name order (a missing key yields the Go zero
value, which cannot happen since the names are the keys). -/
def renderTablesSection (reg : Reg) : String :=
  if reg.length > 0 then
    "# 数据库表\n\n" ++
    String.join ((renderedTableNames reg).map
      (fun n => renderTable n ((regLookup reg n).getD default)))
  else ""

/-! ## Source annotation scanner data model (parser.go lines 27-46 and the
fragment of `go/ast` it consumes) -/

/-- The initializer expressions `parseEnumItems` distinguishes:
`*ast.BasicLit`, `*ast.Ident`, `*ast.SelectorExpr` whose `X` is an
identifier, a selector whose `X` is not an identifier, and anything else. -/
inductive ValueExpr where
  | basicLit (v : String)
  | identE (name : String)
  | selector (x sel : String)
  | selectorNonIdent
  | other
deriving DecidableEq

/-- The value rendering of the `switch` in `parseEnumItems`; cases that
assign nothing leave the Go `interface{}` field `nil` (`none`). -/
def renderValue : ValueExpr → Option String
  | ValueExpr.basicLit v => some v
  | ValueExpr.identE n => some n
  | ValueExpr.selector x sel => some (x ++ "." ++ sel)
  | ValueExpr.selectorNonIdent => none
  | ValueExpr.other => none

/-- A type expression on a `ValueSpec`: an `*ast.Ident` (simple named type)
or any other shape. -/
inductive TypeExpr where
  | identT (name : String)
  | otherT
deriving DecidableEq

/-- An `*ast.ValueSpec`: declared names, initializer expressions, optional
type, optional trailing same-line comment group and optional leading doc
comment group (each modelled by the trimmable text its `.Text()` returns). -/
structure ValueSpec where
  names : List String
  values : List ValueExpr
  typ : Option TypeExpr
  comment : Option String
  doc : Option String
deriving DecidableEq

/-- An `*ast.GenDecl` of kind const/var: its token string and its specs
(specs of a const/var declaration are always `*ast.ValueSpec`). -/
structure GenDecl where
  tok : String
  specs : List ValueSpec
deriving DecidableEq

/-- `EnumItem` (parser.go lines 40-46); `Description` and `Example` are
never assigned by the parser and keep their zero values. -/
structure EnumItem where
  Name : String
  Value : Option String
  Comment : String
  Description : String := ""
  Example : String := ""
deriving DecidableEq

/-- `EnumGroup` (parser.go lines 27-37); the Go field `Type` is `Typ` here
(`Type` is a Lean keyword). -/
structure EnumGroup where
  Name : String
  Description : String
  Package : String
  File : String
  Typ : String
  Items : List EnumItem
  Tags : List String
  Category : String
deriving DecidableEq

/-! ## `parseEnumItems` (parser.go lines 310-349) -/

/-- The items produced from one `ValueSpec`: one item per declared name,
with the i-th initializer's rendering as value (absent when the names
outnumber the values), and the comment resolved as: trailing same-line
comment if present, else own doc comment, else the group comment when
non-empty. -/
def specItems (groupComment : String) (vs : ValueSpec) : List EnumItem :=
  vs.names.enum.map fun p =>
    { Name := p.2
      Value := (vs.values[p.1]?).bind renderValue
      Comment :=
        match vs.comment with
        | some c => goTrimSpace c
        | none =>
          match vs.doc with
          | some d => goTrimSpace d
          | none => if groupComment ≠ "" then groupComment else "" }

/-- `parseEnumItems`: concatenation over the declaration's specs. -/
def parseEnumItems (specs : List ValueSpec) (groupComment : String) : List EnumItem :=
  specs.flatMap (specItems groupComment)

/-! ## `getEnumGroupName` (parser.go lines 282-307) -/

/-- ASCII uppercase test, the Go condition `name[i] >= 'A' && name[i] <= 'Z'`. -/
def isUpperAZ (c : Char) : Bool := decide ('A' ≤ c ∧ c ≤ 'Z')

/-- The backwards scan of `getEnumGroupName`: `some p` when the name
contains an ASCII uppercase letter, where `p` is the prefix strictly before
the last one (`name[:i]`); `none` otherwise (Go then returns the whole
name). -/
def beforeLastUpperAux : List Char → Option (List Char)
  | [] => none
  | c :: rest =>
    match beforeLastUpperAux rest with
    | some p => some (c :: p)
    | none => if isUpperAZ c then some [] else none

/-- `name[:i]` for the last uppercase position `i`, or the whole name. -/
def beforeLastUpper (name : List Char) : List Char :=
  (beforeLastUpperAux name).getD name

/-- The first branch of `getEnumGroupName`: a single spec carrying a simple
identifier type gives the type name. -/
def singleSpecTypeName (gen : GenDecl) : Option String :=
  match gen.specs with
  | [spec] =>
    match spec.typ with
    | some (TypeExpr.identT n) => some n
    | _ => none
  | _ => none

/-- The second block of `getEnumGroupName`: derive a shared prefix from the
first spec's first declared name (`"Unknown"` when there is none). -/
def prefixGroupName (gen : GenDecl) : String :=
  match gen.specs with
  | [] => "Unknown"
  | spec :: _ =>
    match spec.names with
    | [] => "Unknown"
    | name :: _ => ⟨beforeLastUpper name.data⟩

/-- `getEnumGroupName` from parser.go. -/
def getEnumGroupName (gen : GenDecl) : String :=
  match singleSpecTypeName gen with
  | some n => n
  | none => prefixGroupName gen

/-! ## `parseEnumGroup` (parser.go lines 161-181) -/

/-- `parseEnumGroup`: builds the group, names it
`fmt.Sprintf("%s %s", getEnumGroupName(gen), docComment)`, and returns
`none` when no items were parsed. -/
def parseEnumGroup (gen : GenDecl) (docComment pkgName filePath : String) :
    Option EnumGroup :=
  let items := parseEnumItems gen.specs docComment
  if items.length > 0 then
    some { Name := getEnumGroupName gen ++ " " ++ docComment
           Description := docComment
           Package := pkgName
           File := filePath
           Typ := gen.tok
           Items := items
           Tags := []
           Category := "" }
  else none

/-! ## `generateTags` (parser.go lines 184-218) and helpers -/

/-- `splitCamelCase` (parser.go lines 240-258); the Go `unicode.IsUpper`
restricted to ASCII. -/
def splitCamelCaseAux : List Char → List Char → List (List Char)
  | [], cur => if cur = [] then [] else [cur.reverse]
  | c :: rest, cur =>
    if c.isUpper then
      if cur = [] then splitCamelCaseAux rest [c]
      else cur.reverse :: splitCamelCaseAux rest [c]
    else splitCamelCaseAux rest (c :: cur)

/-- `splitCamelCase` on strings. -/
def splitCamelCase (s : String) : List String :=
  (splitCamelCaseAux s.data []).map String.mk

/-- The punctuation cutset of `extractKeywords`:  `,.()[]{}"'`. -/
def isKeywordCut (c : Char) : Bool :=
  c = ',' || c = '.' || c = '(' || c = ')' || c = '[' || c = ']' ||
  c = Char.ofNat 123 || c = Char.ofNat 125 || c = '"' || c = Char.ofNat 39

/-- The stop-word list of `extractKeywords`. -/
def stopWords : List String :=
  ["the", "a", "an", "and", "or", "in", "on", "at", "to", "for"]

/-- ASCII lower-casing (per character), the fragment of `strings.ToLower`
the tag engine exercises. -/
def toLowerAscii (c : Char) : Char :=
  if 'A' ≤ c ∧ c ≤ 'Z' then Char.ofNat (c.toNat + 32) else c

/-- `strings.ToLower`, ASCII fragment. -/
def toLowerStr (s : String) : String := ⟨s.data.map toLowerAscii⟩

/-- `extractKeywords` (parser.go lines 261-279): whitespace-split words,
punctuation-trimmed and lower-cased, keeping those that are not stop words
and whose UTF-8 byte length exceeds 2 (Go `len(word)`). -/
def extractKeywords (text : String) : List String :=
  ((fieldsChars text.data).map
      (fun w => toLowerStr ⟨trimBothBy isKeywordCut w⟩)).filter
    (fun w => decide (w ∉ stopWords) && decide (w.utf8ByteSize > 2))

/-- The insertion sequence into the `tags map[string]bool` of
`generateTags`: group-name camel-case words, description keywords, and for
each item its name's camel-case words and its comment's keywords, all
lower-cased. -/
def collectTags (g : EnumGroup) : List String :=
  (splitCamelCase g.Name).map toLowerStr ++
  (extractKeywords g.Description).map toLowerStr ++
  g.Items.flatMap (fun it =>
    (splitCamelCase it.Name).map toLowerStr ++
    (extractKeywords it.Comment).map toLowerStr)

/-- `generateTags`: the key set of the tag map (Go map keys are the
deduplicated insertions; their iteration order is irrelevant because the
result is sorted), sorted ascending. -/
def generateTags (g : EnumGroup) : List String :=
  sortStrings (collectTags g).dedup

/-! ## `mergeEnumGroup` (parser.go lines 682-714) -/

/-- The two append loops of `mergeEnumGroup`: walk the new elements and
append those whose key is not in the pre-computed membership set (the Go
`existingItems` / `existingTags` maps, built once and not updated inside
the loop). -/
def appendUnseen {α : Type} (key : α → String) (seen : List String)
    (acc : List α) : List α → List α
  | [] => acc
  | x :: xs =>
    if key x ∈ seen then appendUnseen key seen acc xs
    else appendUnseen key seen (acc ++ [x]) xs

/-- `mergeEnumGroup`: concatenate the description when the new one is
non-empty and different; union items by name (existing wins); union tags
and re-sort. -/
def mergeEnumGroup (e n : EnumGroup) : EnumGroup :=
  let description :=
    if n.Description ≠ "" ∧ e.Description ≠ n.Description then
      e.Description ++ "\n" ++ n.Description
    else e.Description
  let items := appendUnseen EnumItem.Name (e.Items.map EnumItem.Name) e.Items n.Items
  let tags := sortStrings (appendUnseen id e.Tags e.Tags n.Tags)
  { e with Description := description, Items := items, Tags := tags }

/-! ## `ToMarkdown`, enumeration section (parser.go lines 720-747) -/

/-- The tag line of one rendered group (tags joined by " · ", each in
backquotes), empty when the group has no tags. -/
def renderTagsLine (tags : List String) : String :=
  match tags with
  | [] => ""
  | t :: ts =>
      "**标签：** " ++ "`" ++ t ++ "`" ++
      String.join (ts.map (fun x => " · " ++ "`" ++ x ++ "`")) ++ "\n\n"

/-- One member row of a rendered group (`nil` value renders as ""). -/
def renderItemRow (it : EnumItem) : String :=
  "| " ++ it.Name ++ " | " ++ (it.Value.getD "") ++ " | " ++ it.Comment ++ " |\n"

/-- One rendered enumeration group. -/
def renderEnumGroupMd (g : EnumGroup) : String :=
  "## " ++ g.Name ++ "\n\n" ++ renderTagsLine g.Tags ++
  "| 变量 | 原值 | 描述 |\n|---|---|---|\n" ++
  String.join (g.Items.map renderItemRow) ++ "\n"

/-- The enumeration section of `ToMarkdown`; the iteration order over the
`enums` map is unspecified in Go and is modelled by the list order. -/
def renderEnumsSection (enums : List EnumGroup) : String :=
  if enums.length > 0 then
    "# 枚举类型\n\n" ++ String.join (enums.map renderEnumGroupMd)
  else ""

/-- `ToMarkdown`: enumeration section followed by the table section. -/
def ToMarkdown (enums : List EnumGroup) (reg : Reg) : String :=
  renderEnumsSection enums ++ renderTablesSection reg

/-! ## `decodeComment` (parser.go lines 654-680) -/

/-- One fallback attempt of `decodeComment`: run a decoder (`none` models a
transform error); accept its output only when it is valid UTF-8. -/
def tryDecodeStep {α : Type} (valid : α → Bool) (dec : α → Option α) (s : α) : Option α :=
  match dec s with
  | some d => if valid d then some d else none
  | none => none

/-- `decodeComment`, parametrized by the UTF-8 validity test and the three
library decoders (GBK, Big5, GB18030) it consults, over an arbitrary type
of byte strings: return a valid-UTF-8 input unchanged, otherwise try the
decoders in order, accepting the first whose output is valid UTF-8, and
fall back to the original input. A total function: no failure is
possible. -/
def decodeComment {α : Type} (valid : α → Bool) (gbk big5 gb18030 : α → Option α)
    (s : α) : α :=
  if valid s then s
  else
    match tryDecodeStep valid gbk s with
    | some d => d
    | none =>
      match tryDecodeStep valid big5 s with
      | some d => d
      | none =>
        match tryDecodeStep valid gb18030 s with
        | some d => d
        | none => s

/-- The three syntactic shapes of a `COMMENT ON COLUMN` target for table
`t` and column `c` as captured by the comment regex: bare (which is also
what the regex capture is for an unquoted schema-qualified
`public.t.c` target, the regex having consumed the `public.` prefix),
quoted, and quoted with quoted schema. -/
def columnTargets (t c : String) : List String :=
  [t ++ "." ++ c,
   "\"" ++ t ++ "\".\"" ++ c ++ "\"",
   "\"public\".\"" ++ t ++ "\".\"" ++ c ++ "\""]

/-! # Theorems

First the generic lemmas about the embedded helpers, then one theorem per
claim (with its witness or counterexample). -/

theorem strLeAux_total (a : List Char) : ∀ b, strLeAux a b = true ∨ strLeAux b a = true := by
  induction a with
  | nil => intro b; left; rfl
  | cons x xs ih =>
    intro b
    cases b with
    | nil => right; rfl
    | cons y ys =>
      by_cases hxy : x = y
      · subst hxy
        rcases ih ys with h | h
        · left; simpa [strLeAux] using h
        · right; simpa [strLeAux] using h
      · rcases lt_or_gt_of_ne hxy with h | h
        · left; simp [strLeAux, hxy, charLtB, h]
        · right; simp [strLeAux, Ne.symm hxy, charLtB, h]

theorem strLeAux_trans (a : List Char) :
    ∀ b c, strLeAux a b = true → strLeAux b c = true → strLeAux a c = true := by
  induction a with
  | nil => intro b c _ _; rfl
  | cons x xs ih =>
    intro b c hab hbc
    cases b with
    | nil => simp [strLeAux] at hab
    | cons y ys =>
      cases c with
      | nil => simp [strLeAux] at hbc
      | cons z zs =>
        by_cases hxy : x = y
        · subst hxy
          by_cases hyz : x = z
          · subst hyz
            simp only [strLeAux, if_pos rfl] at hab hbc ⊢
            exact ih ys zs hab hbc
          · simp only [strLeAux, if_pos rfl] at hab
            simpa [strLeAux, hyz] using hbc
        · simp only [strLeAux, if_neg hxy] at hab
          have hxyLt : x < y := of_decide_eq_true hab
          by_cases hyz : y = z
          · subst hyz
            simp [strLeAux, hxy, charLtB, hxyLt]
          · simp only [strLeAux, if_neg hyz] at hbc
            have hyzLt : y < z := of_decide_eq_true hbc
            have hxzLt : x < z := lt_trans hxyLt hyzLt
            simp [strLeAux, ne_of_lt hxzLt, charLtB, hxzLt]

theorem strLeAux_antisymm (a : List Char) :
    ∀ b, strLeAux a b = true → strLeAux b a = true → a = b := by
  induction a with
  | nil =>
    intro b _ hba
    cases b with
    | nil => rfl
    | cons y ys => simp [strLeAux] at hba
  | cons x xs ih =>
    intro b hab hba
    cases b with
    | nil => simp [strLeAux] at hab
    | cons y ys =>
      by_cases hxy : x = y
      · subst hxy
        simp only [strLeAux, if_pos rfl] at hab hba
        rw [ih ys hab hba]
      · simp only [strLeAux, if_neg hxy, if_neg (Ne.symm hxy)] at hab hba
        have h1 : x < y := of_decide_eq_true hab
        have h2 : y < x := of_decide_eq_true hba
        exact absurd h2 (asymm h1)

theorem strLeR_total : ∀ a b : String, strLeR a b ∨ strLeR b a :=
  fun a b => strLeAux_total a.data b.data

theorem strLeR_trans : ∀ a b c : String, strLeR a b → strLeR b c → strLeR a c :=
  fun a b c hab hbc => strLeAux_trans a.data b.data c.data hab hbc

theorem strLeR_antisymm : ∀ a b : String, strLeR a b → strLeR b a → a = b := by
  intro a b hab hba
  cases a; cases b
  exact congrArg String.mk (strLeAux_antisymm _ _ hab hba)

theorem sortStrings_sorted (l : List String) : List.Sorted strLeR (sortStrings l) := by
  haveI : IsTotal String strLeR := ⟨strLeR_total⟩
  haveI : IsTrans String strLeR := ⟨strLeR_trans⟩
  exact List.sorted_insertionSort strLeR l

theorem sortStrings_perm (l : List String) : List.Perm (sortStrings l) l :=
  List.perm_insertionSort strLeR l

theorem sortStrings_nodup {l : List String} (h : l.Nodup) : (sortStrings l).Nodup :=
  ((sortStrings_perm l).symm).nodup h

theorem sortStrings_mem {l : List String} {a : String} : a ∈ sortStrings l ↔ a ∈ l :=
  (sortStrings_perm l).mem_iff

theorem sortStrings_eq_of_perm {l₁ l₂ : List String} (h : List.Perm l₁ l₂) :
    sortStrings l₁ = sortStrings l₂ := by
  haveI : IsAntisymm String strLeR := ⟨strLeR_antisymm⟩
  exact List.eq_of_perm_of_sorted
    (((sortStrings_perm l₁).trans h).trans (sortStrings_perm l₂).symm)
    (sortStrings_sorted l₁) (sortStrings_sorted l₂)

theorem regLookup_regInsert_self (reg : Reg) (k : String) (v : TableComment) :
    regLookup (regInsert reg k v) k = some v := by
  induction reg with
  | nil => simp [regInsert, regLookup]
  | cons hd tl ih =>
    obtain ⟨k', v'⟩ := hd
    by_cases h : k' = k
    · simp [regInsert, regLookup, h]
    · simp [regInsert, regLookup, h, ih]

theorem regLookup_regInsert_ne (reg : Reg) (k k' : String) (v : TableComment)
    (h : k' ≠ k) : regLookup (regInsert reg k v) k' = regLookup reg k' := by
  induction reg with
  | nil => simp [regInsert, regLookup, Ne.symm h]
  | cons hd tl ih =>
    obtain ⟨k₀, v₀⟩ := hd
    by_cases h0 : k₀ = k
    · subst h0
      simp [regInsert, regLookup, Ne.symm h]
    · simp only [regInsert, if_neg h0, regLookup]
      by_cases h1 : k₀ = k'
      · simp [h1]
      · simp [h1, ih]

theorem splitFieldsCore_no_comma (l : List Char) :
    ∀ (d : Int) (cur : List Char), noCommaAtDepth l d = true →
      splitFieldsCore l d cur =
        if (cur ++ l).length > 0 then [cur ++ l] else [] := by
  induction l with
  | nil => intro d cur _; simp [splitFieldsCore]
  | cons ch rest ih =>
    intro d cur h
    by_cases h1 : ch = '('
    · subst h1
      simp only [noCommaAtDepth, if_pos rfl] at h
      simpa [splitFieldsCore, List.append_assoc] using ih (d + 1) (cur ++ ['(']) h
    · by_cases h2 : ch = ')'
      · subst h2
        simp [noCommaAtDepth] at h
        simpa [splitFieldsCore, List.append_assoc] using ih (d - 1) (cur ++ [')']) h
      · by_cases h3 : ch = ','
        · subst h3
          simp [noCommaAtDepth] at h
          obtain ⟨hd, h⟩ := h
          simpa [splitFieldsCore, h1, h2, hd, List.append_assoc] using ih d (cur ++ [',']) h
        · simp only [noCommaAtDepth, if_neg h1, if_neg h2, if_neg h3] at h
          simpa [splitFieldsCore, h1, h2, h3, List.append_assoc] using ih d (cur ++ [ch]) h

theorem splitFieldsCore_split_at_comma (pre : List Char) :
    ∀ (d : Int) (cur suf : List Char), noCommaAtDepth pre d = true →
      d + depthDelta pre = 0 →
      splitFieldsCore (pre ++ ',' :: suf) d cur =
        (cur ++ pre) :: splitFieldsCore suf 0 [] := by
  induction pre with
  | nil =>
    intro d cur suf _ hd
    simp only [depthDelta, add_zero] at hd
    simp [splitFieldsCore, hd]
  | cons ch rest ih =>
    intro d cur suf h hd
    by_cases h1 : ch = '('
    · subst h1
      simp only [noCommaAtDepth, if_pos rfl] at h
      simp [depthDelta] at hd
      have hd' : d + 1 + depthDelta rest = 0 := by omega
      simpa [splitFieldsCore, List.append_assoc] using ih (d + 1) (cur ++ ['(']) suf h hd'
    · by_cases h2 : ch = ')'
      · subst h2
        simp [noCommaAtDepth] at h
        simp [depthDelta] at hd
        have hd' : d - 1 + depthDelta rest = 0 := by omega
        simpa [splitFieldsCore, List.append_assoc] using ih (d - 1) (cur ++ [')']) suf h hd'
      · by_cases h3 : ch = ','
        · subst h3
          simp [noCommaAtDepth] at h
          obtain ⟨hdz, h⟩ := h
          simp [depthDelta] at hd
          have hd' : d + depthDelta rest = 0 := by omega
          simpa [splitFieldsCore, h1, h2, hdz, List.append_assoc] using
            ih d (cur ++ [',']) suf h hd'
        · simp only [noCommaAtDepth, if_neg h1, if_neg h2, if_neg h3] at h
          simp only [depthDelta, if_neg h1, if_neg h2] at hd
          have hd' : d + depthDelta rest = 0 := by omega
          simpa [splitFieldsCore, h1, h2, h3, List.append_assoc] using
            ih d (cur ++ [ch]) suf h hd'

theorem extractTypeCore_append (ty : List Char) :
    ∀ (d : Int) (rest : List Char), noSpaceAtDepth ty d = true →
      extractTypeCore (ty ++ rest) d = ty ++ extractTypeCore rest (d + depthDelta ty) := by
  induction ty with
  | nil => intro d rest _; simp [depthDelta]
  | cons ch tl ih =>
    intro d rest h
    by_cases h1 : ch = '('
    · subst h1
      simp only [noSpaceAtDepth, if_pos rfl] at h
      have hih := ih (d + 1) rest h
      have harith : d + depthDelta ('(' :: tl) = d + 1 + depthDelta tl := by
        simp [depthDelta]; omega
      rw [harith]
      simp [extractTypeCore, hih]
    · by_cases h2 : ch = ')'
      · subst h2
        simp [noSpaceAtDepth] at h
        have hih := ih (d - 1) rest h
        have harith : d + depthDelta (')' :: tl) = d - 1 + depthDelta tl := by
          simp [depthDelta]; omega
        rw [harith]
        simp [extractTypeCore, hih]
      · by_cases h3 : ch = ' '
        · subst h3
          simp [noSpaceAtDepth] at h
          obtain ⟨hd, h⟩ := h
          have hih := ih d rest h
          have harith : d + depthDelta (' ' :: tl) = d + depthDelta tl := by
            simp [depthDelta]
          rw [harith]
          have hcond : ¬ ((' ' : Char) = ' ' ∧ d = 0) := fun hc => hd hc.2
          simp [extractTypeCore, hcond, hd, hih]
        · simp only [noSpaceAtDepth, if_neg h1, if_neg h2, if_neg h3] at h
          have hih := ih d rest h
          have harith : d + depthDelta (ch :: tl) = d + depthDelta tl := by
            simp [depthDelta, h1, h2]
          rw [harith]
          have hcond : ¬ (ch = ' ' ∧ d = 0) := fun hc => h3 hc.1
          simp [extractTypeCore, h1, h2, hcond, hih]

/-! ## `parseFieldDef` (parser.go lines 546-567) -/


/-! ## Small helper lemmas -/

theorem dropWhile_false {p : Char → Bool} {l : List Char} (h : ∀ c ∈ l, p c = false) :
    l.dropWhile p = l := by
  cases l with
  | nil => rfl
  | cons c cs => simp [List.dropWhile_cons, h c (List.mem_cons_self c cs)]

theorem trimBothBy_false {p : Char → Bool} {l : List Char} (h : ∀ c ∈ l, p c = false) :
    trimBothBy p l = l := by
  unfold trimBothBy
  rw [dropWhile_false h,
      dropWhile_false (fun c hc => h c (List.mem_reverse.1 hc)),
      List.reverse_reverse]

theorem trimCharL_id {ch : Char} {l : List Char} (h : ch ∉ l) : trimCharL ch l = l := by
  apply trimBothBy_false
  intro c hc
  exact decide_eq_false (fun he => h (he ▸ hc))

theorem setFieldComment_first_match (c comment : String) :
    ∀ (pre : List FieldComment) (f : FieldComment) (post : List FieldComment),
      (∀ g ∈ pre, g.FieldName ≠ c) → f.FieldName = c →
      setFieldComment (pre ++ f :: post) c comment
        = pre ++ { f with Comment := comment } :: post := by
  intro pre
  induction pre with
  | nil =>
    intro f post _ hf
    simp [setFieldComment, hf]
  | cons g gs ih =>
    intro f post hpre hf
    have hg : g.FieldName ≠ c := hpre g (List.mem_cons_self g gs)
    have ihs := ih f post (fun x hx => hpre x (List.mem_cons_of_mem g hx)) hf
    simp [setFieldComment, hg, ihs]

theorem setFieldComment_no_match (c comment : String) :
    ∀ fs : List FieldComment, (∀ g ∈ fs, g.FieldName ≠ c) →
      setFieldComment fs c comment = fs := by
  intro fs
  induction fs with
  | nil => intro _; rfl
  | cons g gs ih =>
    intro h
    have hg : g.FieldName ≠ c := h g (List.mem_cons_self g gs)
    simp [setFieldComment, hg, ih (fun x hx => h x (List.mem_cons_of_mem g hx))]

theorem clauseToField_structural {d : String} (h : isStructuralClause d = true) :
    clauseToField d = none := by
  unfold clauseToField
  by_cases h0 : goTrimSpace d = ""
  · simp [h0]
  · simp [h0, h]

/-! ## Claim theorems -/

/-- C5: `decodeComment` is a total function (no failure is possible by
construction): valid-UTF-8 input is returned unchanged (short-circuit);
otherwise GBK, Big5 and GB18030 are tried in that order, the first decode
whose result is valid UTF-8 is returned; if all fail the original input is
returned verbatim. -/
theorem decodeComment_fallback_chain {α : Type} (valid : α → Bool)
    (gbk big5 gb18030 : α → Option α) (s : α) :
    (valid s = true → decodeComment valid gbk big5 gb18030 s = s)
  ∧ (∀ d, valid s = false → gbk s = some d → valid d = true →
      decodeComment valid gbk big5 gb18030 s = d)
  ∧ (∀ d, valid s = false → tryDecodeStep valid gbk s = none →
      big5 s = some d → valid d = true → decodeComment valid gbk big5 gb18030 s = d)
  ∧ (∀ d, valid s = false → tryDecodeStep valid gbk s = none →
      tryDecodeStep valid big5 s = none → gb18030 s = some d → valid d = true →
      decodeComment valid gbk big5 gb18030 s = d)
  ∧ (valid s = false → tryDecodeStep valid gbk s = none →
      tryDecodeStep valid big5 s = none → tryDecodeStep valid gb18030 s = none →
      decodeComment valid gbk big5 gb18030 s = s)
  ∧ (∀ dec : α → Option α, tryDecodeStep valid dec s = none ↔
      (dec s = none ∨ ∃ d, dec s = some d ∧ valid d = false)) := by
  refine ⟨?_, ?_, ?_, ?_, ?_, ?_⟩
  · intro h; simp [decodeComment, h]
  · intro d h hg hv; simp [decodeComment, h, tryDecodeStep, hg, hv]
  · intro d h hg hb hv
    simp only [decodeComment, h]
    rw [hg]
    simp [tryDecodeStep, hb, hv]
  · intro d h hg hb h18 hv
    simp only [decodeComment, h]
    rw [hg, hb]
    simp [tryDecodeStep, h18, hv]
  · intro h hg hb h18; simp [decodeComment, h, hg, hb, h18]
  · intro dec
    unfold tryDecodeStep
    cases hd : dec s with
    | none => simp
    | some d =>
      by_cases hv : valid d = true
      · simp [hv]
      · simp [hv, Bool.eq_false_iff.2 hv]

/-- C5 witness: toy decoders over `Nat` exercising the short-circuit and
the second fallback. -/
theorem decodeComment_fallback_chain_witness :
    decodeComment (fun n => decide (n % 2 = 0)) (fun _ => none)
      (fun n => some (n + 1)) (fun _ => none) 1 = 2
  ∧ decodeComment (fun n => decide (n % 2 = 0)) (fun _ => none)
      (fun n => some (n + 1)) (fun _ => none) 4 = 4 :=
  ⟨(decodeComment_fallback_chain (fun n => decide (n % 2 = 0)) (fun _ => none)
      (fun n => some (n + 1)) (fun _ => none) 1).2.2.1 2 (by decide) rfl rfl (by decide),
   (decodeComment_fallback_chain (fun n => decide (n % 2 = 0)) (fun _ => none)
      (fun n => some (n + 1)) (fun _ => none) 4).1 (by decide)⟩

/-- C3: for a `CREATE TABLE` statement whose name and parenthesized body
are extractable, the stored entry's column list is built from the top-level
comma split of the body in declaration order: a clause that parses to a
field contributes exactly that field at its position, and a clause
beginning (case-insensitively) with `PRIMARY KEY` or `CONSTRAINT`
contributes nothing. -/
theorem createTable_fields_ordered_no_structural
    (nameCapture stmt body : String) (reg : Reg)
    (hbody : extractParenBody stmt.data = some body.data)
    (d : String) (pre post : List String) :
    (regLookup (applyCreateTableStmt nameCapture stmt reg) (normalizeTableName nameCapture)
      = some { TableName := normalizeTableName nameCapture, Comment := "",
               Fields := buildFields (splitFields body) })
  ∧ (isStructuralClause d = true →
      buildFields (pre ++ d :: post) = buildFields (pre ++ post))
  ∧ (∀ f, clauseToField d = some f →
      buildFields (pre ++ d :: post) = buildFields pre ++ f :: buildFields post) := by
  refine ⟨?_, ?_, ?_⟩
  · unfold applyCreateTableStmt
    rw [hbody]
    unfold applyCreateTable
    exact regLookup_regInsert_self reg (normalizeTableName nameCapture) _
  · intro h
    simp [buildFields, List.filterMap_append, List.filterMap_cons, clauseToField_structural h]
  · intro f hf
    simp [buildFields, List.filterMap_append, List.filterMap_cons, hf]

/-- C3 witness: a two-clause body with a trailing `PRIMARY KEY` clause. -/
theorem createTable_fields_ordered_no_structural_witness :
    buildFields (["\"id\" bigint"] ++ "PRIMARY KEY (\"id\")" :: [])
      = buildFields (["\"id\" bigint"] ++ []) :=
  (createTable_fields_ordered_no_structural "t"
      "CREATE TABLE t (\"id\" bigint, PRIMARY KEY (\"id\"))"
      "\"id\" bigint, PRIMARY KEY (\"id\")" []
      (by decide) "PRIMARY KEY (\"id\")" ["\"id\" bigint"] []).2.1 (by decide)

/-- C4: a comma at paren depth greater than zero does not split a clause
(a clause with no depth-zero comma is returned whole by `splitFields`), a
comma at depth zero does split, and the extracted type token runs to the
first space met at paren depth zero, so a balanced parenthesized modifier
(commas and spaces inside included) is kept whole. -/
theorem paren_comma_no_split_and_full_type (s ty rest : String) (pre suf : List Char)
    (hs : noCommaAtDepth s.data 0 = true) (hne : s.data ≠ [])
    (hpre : noCommaAtDepth pre 0 = true) (hbalp : depthDelta pre = 0)
    (hty : noSpaceAtDepth ty.data 0 = true) (hbal : depthDelta ty.data = 0) :
    splitFields s = [s]
  ∧ splitFieldsCore (pre ++ ',' :: suf) 0 [] = pre :: splitFieldsCore suf 0 []
  ∧ extractType (ty ++ " " ++ rest) = goTrimSpace ty
  ∧ extractType ty = goTrimSpace ty := by
  refine ⟨?_, ?_, ?_, ?_⟩
  · unfold splitFields
    rw [splitFieldsCore_no_comma s.data 0 [] hs]
    have hlen : ([] ++ s.data).length > 0 := by
      simp only [List.nil_append]
      exact List.length_pos.2 hne
    rw [if_pos hlen]
    simp
  · have h := splitFieldsCore_split_at_comma pre 0 [] suf hpre (by omega)
    simpa using h
  · unfold extractType
    have hdata : (ty ++ " " ++ rest).data = ty.data ++ (' ' :: rest.data) := by
      simp [String.data_append]
    rw [hdata, extractTypeCore_append ty.data 0 (' ' :: rest.data) hty, hbal]
    simp [extractTypeCore, goTrimSpace]
  · unfold extractType
    have hdata : ty.data = ty.data ++ ([] : List Char) := by simp
    rw [hdata, extractTypeCore_append ty.data 0 [] hty]
    simp [extractTypeCore, goTrimSpace]

/-- C4 witness: `numeric(10,2)` is one clause and one full type token. -/
theorem paren_comma_no_split_and_full_type_witness :
    splitFields "numeric(10,2)" = ["numeric(10,2)"]
  ∧ extractType ("numeric(10,2)" ++ " " ++ "NOT NULL") = goTrimSpace "numeric(10,2)" :=
  ⟨(paren_comma_no_split_and_full_type "numeric(10,2)" "numeric(10,2)" "NOT NULL"
      [] [] (by decide) (by decide) (by decide) (by decide) (by decide) (by decide)).1,
   (paren_comma_no_split_and_full_type "numeric(10,2)" "numeric(10,2)" "NOT NULL"
      [] [] (by decide) (by decide) (by decide) (by decide) (by decide) (by decide)).2.2.1⟩


/-- C9: for a member of an annotated declaration group, an explicit
trailing same-line comment is recorded exactly (whitespace-trimmed); the
own leading doc comment is used only when there is none, and the group's
shared description only when neither exists (and the empty comment when
the description is empty too); and the member so parsed is among the
items of any declaration containing its spec. -/
theorem trailing_comment_wins (gc : String) (vs : ValueSpec) (it : EnumItem)
    (hmem : it ∈ specItems gc vs) :
    (∀ c, vs.comment = some c → it.Comment = goTrimSpace c)
  ∧ (∀ d, vs.comment = none → vs.doc = some d → it.Comment = goTrimSpace d)
  ∧ (vs.comment = none → vs.doc = none → gc ≠ "" → it.Comment = gc)
  ∧ (vs.comment = none → vs.doc = none → gc = "" → it.Comment = "")
  ∧ (∀ specs : List ValueSpec, vs ∈ specs → it ∈ parseEnumItems specs gc) := by
  have hmem0 := hmem
  unfold specItems at hmem
  obtain ⟨p, hp, rfl⟩ := List.mem_map.1 hmem
  refine ⟨?_, ?_, ?_, ?_, ?_⟩
  · intro c hc; simp [hc]
  · intro d hc hd; simp [hc, hd]
  · intro hc hd hgc; simp [hc, hd, hgc]
  · intro hc hd hgc; simp [hc, hd, hgc]
  · intro specs hspecs
    unfold parseEnumItems
    exact List.mem_flatMap.2 ⟨vs, hspecs, hmem0⟩

/-- C9 witness: a member with a trailing comment, a doc comment and a
non-empty group description keeps exactly the trimmed trailing comment. -/
theorem trailing_comment_wins_witness :
    (EnumItem.mk "A" (some "1") "one" "" "").Comment = goTrimSpace " one " :=
  (trailing_comment_wins "group description"
      ⟨["A"], [ValueExpr.basicLit "1"], none, some " one ", some "doc comment"⟩
      (EnumItem.mk "A" (some "1") "one" "" "") (by decide)).1 " one " rfl

/-- C10 helper: a name without ASCII uppercase letters makes the backwards
scan of `getEnumGroupName` fail. -/
theorem beforeLastUpperAux_none {l : List Char} (h : ∀ c ∈ l, isUpperAZ c = false) :
    beforeLastUpperAux l = none := by
  induction l with
  | nil => rfl
  | cons c cs ih =>
    have hc := h c (List.mem_cons_self c cs)
    have ih' := ih (fun x hx => h x (List.mem_cons_of_mem c hx))
    simp [beforeLastUpperAux, ih', hc]

/-- C10: for a declaration group that does not take its name from a single
member's simple type annotation, if the first member's declared name has
its only ASCII uppercase letter at position 0, the derived base name is the
empty string (`name[:0]`), so the externally visible group name is a single
space followed by the description. -/
theorem leading_single_upper_empty_base
    (gen : GenDecl) (docComment pkgName filePath : String)
    (spec : ValueSpec) (specs' : List ValueSpec) (nm : String) (nms : List String)
    (c : Char) (cs : List Char)
    (hty : singleSpecTypeName gen = none)
    (hsp : gen.specs = spec :: specs')
    (hnm : spec.names = nm :: nms)
    (hch : nm.data = c :: cs)
    (hup : isUpperAZ c = true)
    (hrest : ∀ c' ∈ cs, isUpperAZ c' = false) :
    getEnumGroupName gen = ""
  ∧ (∀ g, parseEnumGroup gen docComment pkgName filePath = some g →
      g.Name = " " ++ docComment) := by
  have haux : beforeLastUpperAux nm.data = some [] := by
    rw [hch]
    simp [beforeLastUpperAux, beforeLastUpperAux_none hrest, hup]
  have hname : getEnumGroupName gen = "" := by
    have h1 : prefixGroupName gen = "" := by
      unfold prefixGroupName
      rw [hsp]
      simp only [hnm]
      simp [beforeLastUpper, haux]
    unfold getEnumGroupName
    rw [hty]
    exact h1
  refine ⟨hname, ?_⟩
  intro g hg
  unfold parseEnumGroup at hg
  by_cases hlen : (parseEnumItems gen.specs docComment).length > 0
  · rw [if_pos hlen] at hg
    have hg' := Option.some.inj hg
    rw [← hg']
    show getEnumGroupName gen ++ " " ++ docComment = " " ++ docComment
    rw [hname]
    rfl
  · rw [if_neg hlen] at hg
    exact absurd hg (by simp)

/-- C10 witness: the group `Active = 1` under description `sample` gets the
empty base name and group name `" sample"`. -/
theorem leading_single_upper_empty_base_witness :
    getEnumGroupName ⟨"const", [⟨["Active"], [ValueExpr.basicLit "1"], none, none, none⟩]⟩
      = "" :=
  (leading_single_upper_empty_base
      ⟨"const", [⟨["Active"], [ValueExpr.basicLit "1"], none, none, none⟩]⟩
      "sample" "pkg" "file.go"
      ⟨["Active"], [ValueExpr.basicLit "1"], none, none, none⟩ [] "Active" []
      'A' "ctive".data rfl rfl rfl rfl (by decide) (by decide)).1


/-- The append loops of `mergeEnumGroup` are filters: elements whose key
is in the precomputed set are skipped, the rest are appended in order. -/
theorem appendUnseen_eq {α : Type} (key : α → String) (seen : List String) :
    ∀ (xs acc : List α),
      appendUnseen key seen acc xs
        = acc ++ xs.filter (fun x => decide (key x ∉ seen)) := by
  intro xs
  induction xs with
  | nil => intro acc; simp [appendUnseen]
  | cons x xs ih =>
    intro acc
    by_cases h : key x ∈ seen
    · simp [appendUnseen, h, ih, List.filter_cons]
    · simp [appendUnseen, h, ih, List.filter_cons]

theorem mergeEnumGroup_items_eq (e n : EnumGroup) :
    (mergeEnumGroup e n).Items
      = e.Items ++ n.Items.filter
          (fun it => decide (it.Name ∉ e.Items.map EnumItem.Name)) := by
  simp [mergeEnumGroup, appendUnseen_eq]

theorem mergeEnumGroup_tags_eq (e n : EnumGroup) :
    (mergeEnumGroup e n).Tags
      = sortStrings (e.Tags ++ n.Tags.filter (fun t => decide (t ∉ e.Tags))) := by
  simp [mergeEnumGroup, appendUnseen_eq]

theorem union_filter_nodup {e n : List String} (he : e.Nodup) (hn : n.Nodup) :
    (e ++ n.filter (fun t => decide (t ∉ e))).Nodup := by
  rw [List.nodup_append]
  refine ⟨he, hn.filter _, ?_⟩
  intro a ha hafil
  exact (of_decide_eq_true (List.mem_filter.1 hafil).2) ha

/-- C7: tag lists are sorted ascending (in the byte-wise string order) and
duplicate-free after both operations that produce them: always after
`generateTags`, and after `mergeEnumGroup` whenever the two input tag lists
are themselves duplicate-free (which the two producing operations
guarantee). -/
theorem tags_sorted_nodup_invariant (g e n : EnumGroup)
    (he : e.Tags.Nodup) (hn : n.Tags.Nodup) :
    (List.Sorted strLeR (generateTags g) ∧ (generateTags g).Nodup)
  ∧ (List.Sorted strLeR (mergeEnumGroup e n).Tags ∧ (mergeEnumGroup e n).Tags.Nodup) := by
  refine ⟨⟨sortStrings_sorted _, sortStrings_nodup (List.nodup_dedup _)⟩, ?_, ?_⟩
  · rw [mergeEnumGroup_tags_eq]
    exact sortStrings_sorted _
  · rw [mergeEnumGroup_tags_eq]
    exact sortStrings_nodup (union_filter_nodup he hn)

/-- C7 witness: a concrete group and a concrete merge. -/
theorem tags_sorted_nodup_invariant_witness :
    (generateTags ⟨"MailStatus mail status", "mail status", "p", "f", "const",
        [⟨"MailStatusPending", some "1", "pending mail", "", ""⟩], [], ""⟩).Nodup
  ∧ (mergeEnumGroup
        ⟨"G d", "d", "p", "f", "const", [], ["a", "b"], ""⟩
        ⟨"G d", "d2", "p", "g", "const", [], ["c", "b"], ""⟩).Tags.Nodup :=
  ⟨(tags_sorted_nodup_invariant
      ⟨"MailStatus mail status", "mail status", "p", "f", "const",
        [⟨"MailStatusPending", some "1", "pending mail", "", ""⟩], [], ""⟩
      ⟨"G d", "d", "p", "f", "const", [], ["a", "b"], ""⟩
      ⟨"G d", "d2", "p", "g", "const", [], ["c", "b"], ""⟩
      (by decide) (by decide)).1.2,
   (tags_sorted_nodup_invariant
      ⟨"MailStatus mail status", "mail status", "p", "f", "const",
        [⟨"MailStatusPending", some "1", "pending mail", "", ""⟩], [], ""⟩
      ⟨"G d", "d", "p", "f", "const", [], ["a", "b"], ""⟩
      ⟨"G d", "d2", "p", "g", "const", [], ["c", "b"], ""⟩
      (by decide) (by decide)).2.2⟩

/-- C6: merging two groups of the same derived name yields the member list
`existing ++ (new members with unseen names, in their order)` (so the
existing member wins a name collision), whose name list is duplicate-free
and covers exactly the names of both groups; a tag list that is the
sorted, duplicate-free union of both tag sets; and a description equal to
the existing one unless the new one is non-empty and different, in which
case it is appended after a newline. -/
theorem mergeEnumGroup_policy (e n : EnumGroup)
    (hei : (e.Items.map EnumItem.Name).Nodup)
    (hni : (n.Items.map EnumItem.Name).Nodup)
    (het : e.Tags.Nodup) (hnt : n.Tags.Nodup) :
    (mergeEnumGroup e n).Items
        = e.Items ++ n.Items.filter
            (fun it => decide (it.Name ∉ e.Items.map EnumItem.Name))
  ∧ ((mergeEnumGroup e n).Items.map EnumItem.Name).Nodup
  ∧ (∀ s, s ∈ (mergeEnumGroup e n).Items.map EnumItem.Name ↔
        s ∈ e.Items.map EnumItem.Name ∨ s ∈ n.Items.map EnumItem.Name)
  ∧ (∀ t, t ∈ (mergeEnumGroup e n).Tags ↔ t ∈ e.Tags ∨ t ∈ n.Tags)
  ∧ List.Sorted strLeR (mergeEnumGroup e n).Tags
  ∧ (mergeEnumGroup e n).Tags.Nodup
  ∧ ((n.Description = "" ∨ e.Description = n.Description) →
        (mergeEnumGroup e n).Description = e.Description)
  ∧ (n.Description ≠ "" → e.Description ≠ n.Description →
        (mergeEnumGroup e n).Description
          = e.Description ++ "\n" ++ n.Description) := by
  have hitems := mergeEnumGroup_items_eq e n
  have htags := mergeEnumGroup_tags_eq e n
  refine ⟨hitems, ?_, ?_, ?_, ?_, ?_, ?_, ?_⟩
  · rw [hitems, List.map_append, List.nodup_append]
    refine ⟨hei, ?_, ?_⟩
    · exact ((List.filter_sublist n.Items).map EnumItem.Name).nodup hni
    · intro a ha hb
      obtain ⟨it, hit, rfl⟩ := List.mem_map.1 hb
      exact (of_decide_eq_true (List.mem_filter.1 hit).2) ha
  · intro s
    rw [hitems, List.map_append, List.mem_append]
    constructor
    · rintro (h | h)
      · exact Or.inl h
      · obtain ⟨it, hit, rfl⟩ := List.mem_map.1 h
        exact Or.inr (List.mem_map_of_mem EnumItem.Name (List.mem_of_mem_filter hit))
    · rintro (h | h)
      · exact Or.inl h
      · by_cases he : s ∈ e.Items.map EnumItem.Name
        · exact Or.inl he
        · obtain ⟨it, hit, rfl⟩ := List.mem_map.1 h
          refine Or.inr (List.mem_map_of_mem EnumItem.Name ?_)
          exact List.mem_filter.2 ⟨hit, decide_eq_true he⟩
  · intro t
    rw [htags, sortStrings_mem, List.mem_append]
    constructor
    · rintro (h | h)
      · exact Or.inl h
      · exact Or.inr (List.mem_of_mem_filter h)
    · rintro (h | h)
      · exact Or.inl h
      · by_cases he : t ∈ e.Tags
        · exact Or.inl he
        · exact Or.inr (List.mem_filter.2 ⟨h, decide_eq_true he⟩)
  · rw [htags]
    exact sortStrings_sorted _
  · rw [htags]
    exact sortStrings_nodup (union_filter_nodup het hnt)
  · intro h
    rcases h with h | h
    · simp [mergeEnumGroup, h]
    · simp [mergeEnumGroup, h]
  · intro h1 h2
    simp [mergeEnumGroup, h1, h2]

/-- C6 witness: merging two concrete groups with one colliding member name
and one shared tag. -/
theorem mergeEnumGroup_policy_witness :
    (mergeEnumGroup
        ⟨"G d", "d", "p", "f", "const", [⟨"A", some "1", "a", "", ""⟩], ["a", "b"], ""⟩
        ⟨"G d", "d2", "p", "g", "const",
          [⟨"A", some "9", "x", "", ""⟩, ⟨"B", some "2", "b", "", ""⟩], ["c", "b"], ""⟩).Items
      = [⟨"A", some "1", "a", "", ""⟩] ++
        [⟨"A", some "9", "x", "", ""⟩, ⟨"B", some "2", "b", "", ""⟩].filter
          (fun it => decide (it.Name ∉
            ([⟨"A", some "1", "a", "", ""⟩] : List EnumItem).map EnumItem.Name)) :=
  (mergeEnumGroup_policy
      ⟨"G d", "d", "p", "f", "const", [⟨"A", some "1", "a", "", ""⟩], ["a", "b"], ""⟩
      ⟨"G d", "d2", "p", "g", "const",
        [⟨"A", some "9", "x", "", ""⟩, ⟨"B", some "2", "b", "", ""⟩], ["c", "b"], ""⟩
      (by decide) (by decide) (by decide) (by decide)).1


theorem regLookup_eq_none_iff (reg : Reg) (k : String) :
    regLookup reg k = none ↔ k ∉ reg.map Prod.fst := by
  induction reg with
  | nil => simp [regLookup]
  | cons hd tl ih =>
    obtain ⟨k', v⟩ := hd
    by_cases h : k' = k
    · subst h
      simp [regLookup]
    · simp [regLookup, h, ih, Ne.symm h]

theorem regLookup_eq_some_iff {reg : Reg} (hnd : (reg.map Prod.fst).Nodup)
    (k : String) (v : TableComment) :
    regLookup reg k = some v ↔ (k, v) ∈ reg := by
  induction reg with
  | nil => simp [regLookup]
  | cons hd tl ih =>
    obtain ⟨k', v'⟩ := hd
    simp only [List.map_cons, List.nodup_cons] at hnd
    obtain ⟨hk', hnd'⟩ := hnd
    by_cases h : k' = k
    · subst h
      simp only [regLookup, if_pos rfl, List.mem_cons]
      constructor
      · intro hv
        exact Or.inl (congrArg (Prod.mk k') (Option.some.inj hv)).symm
      · rintro (hp | hp)
        · injection hp with h1 h2
          rw [h2]
          simp
        · exact absurd (List.mem_map_of_mem Prod.fst hp) hk'
    · simp only [regLookup, if_neg h, List.mem_cons, ih hnd']
      constructor
      · exact fun hm => Or.inr hm
      · rintro (hp | hp)
        · injection hp with h1 h2
          exact absurd h1.symm h
        · exact hp

theorem regLookup_perm {reg₁ reg₂ : Reg} (h : List.Perm reg₁ reg₂)
    (hnd : (reg₁.map Prod.fst).Nodup) (k : String) :
    regLookup reg₁ k = regLookup reg₂ k := by
  have hnd₂ : (reg₂.map Prod.fst).Nodup := ((h.map Prod.fst).nodup hnd)
  cases hc : regLookup reg₁ k with
  | none =>
    symm
    rw [regLookup_eq_none_iff] at hc ⊢
    exact fun hm => hc (((h.map Prod.fst).mem_iff).2 hm)
  | some v =>
    symm
    rw [regLookup_eq_some_iff hnd] at hc
    rw [regLookup_eq_some_iff hnd₂]
    exact h.mem_iff.1 hc

/-- C8: the table section renders table names in ascending (byte-wise
lexicographic) sorted order, and the rendered document does not depend on
the order in which the tables were inserted into the registry (any
permutation of a registry with unique keys renders identically). -/
theorem tables_rendered_sorted_order_independent
    (enums : List EnumGroup) (reg reg₂ : Reg)
    (hperm : List.Perm reg reg₂) (hnd : (reg.map Prod.fst).Nodup) :
    List.Sorted strLeR (renderedTableNames reg)
  ∧ ToMarkdown enums reg = ToMarkdown enums reg₂ := by
  constructor
  · exact sortStrings_sorted _
  · unfold ToMarkdown
    congr 1
    unfold renderTablesSection
    have hlen : reg.length = reg₂.length := hperm.length_eq
    have hnames : renderedTableNames reg = renderedTableNames reg₂ := by
      unfold renderedTableNames
      exact sortStrings_eq_of_perm (hperm.map Prod.fst)
    have hfun : (fun n => renderTable n ((regLookup reg n).getD default))
        = (fun n => renderTable n ((regLookup reg₂ n).getD default)) :=
      funext fun n => by rw [regLookup_perm hperm hnd n]
    rw [hlen, hnames, hfun]

/-- C8 witness: a two-table registry inserted in both orders. -/
theorem tables_rendered_sorted_order_independent_witness :
    List.Sorted strLeR
      (renderedTableNames [("b", ⟨"b", "", []⟩), ("a", ⟨"a", "", []⟩)])
  ∧ ToMarkdown [] [("b", ⟨"b", "", []⟩), ("a", ⟨"a", "", []⟩)]
      = ToMarkdown [] [("a", ⟨"a", "", []⟩), ("b", ⟨"b", "", []⟩)] :=
  tables_rendered_sorted_order_independent []
    [("b", ⟨"b", "", []⟩), ("a", ⟨"a", "", []⟩)]
    [("a", ⟨"a", "", []⟩), ("b", ⟨"b", "", []⟩)]
    (List.Perm.swap (("a", ⟨"a", "", []⟩) : String × TableComment)
      (("b", ⟨"b", "", []⟩) : String × TableComment) [])
    (by decide)


/-! ## Character-list lemmas for the comment-target decomposition -/

theorem dropWhile_cons_true {p : Char → Bool} {c : Char} {l : List Char} (h : p c = true) :
    (c :: l).dropWhile p = l.dropWhile p := by
  simp [List.dropWhile_cons, h]

theorem dropWhile_cons_false {p : Char → Bool} {c : Char} {l : List Char} (h : p c = false) :
    (c :: l).dropWhile p = c :: l := by
  simp [List.dropWhile_cons, h]

theorem exists_getLast_mem {l : List Char} (h : l ≠ []) :
    ∃ y, l.getLast? = some y ∧ y ∈ l :=
  ⟨l.getLast h, List.getLast?_eq_getLast l h, List.getLast_mem h⟩

theorem getLast?_append_right {l₁ l₂ : List Char} (h : l₂ ≠ []) :
    (l₁ ++ l₂).getLast? = l₂.getLast? := by
  rw [← List.head?_reverse, ← List.head?_reverse, List.reverse_append]
  cases hc : l₂.reverse with
  | nil => exact absurd (by simpa using hc) h
  | cons a as => simp [hc]

theorem trimCharL_strips {ch x y : Char} {m : List Char}
    (hhead : m.head? = some x) (hx : x ≠ ch)
    (hlast : m.getLast? = some y) (hy : y ≠ ch) :
    trimCharL ch (ch :: m ++ [ch]) = m
  ∧ trimCharL ch (m ++ [ch]) = m
  ∧ trimCharL ch (ch :: m) = m
  ∧ trimCharL ch m = m := by
  obtain ⟨m1, rfl⟩ : ∃ m1, m = x :: m1 := by
    cases m with
    | nil => simp at hhead
    | cons a as =>
      simp only [List.head?_cons, Option.some.injEq] at hhead
      exact ⟨as, by rw [hhead]⟩
  obtain ⟨r1, hr⟩ : ∃ r1, (x :: m1).reverse = y :: r1 := by
    have h1 : (x :: m1).reverse.head? = some y := by
      rw [List.head?_reverse]
      exact hlast
    cases hc : (x :: m1).reverse with
    | nil => rw [hc] at h1; simp at h1
    | cons a as =>
      rw [hc] at h1
      simp only [List.head?_cons, Option.some.injEq] at h1
      exact ⟨as, by rw [h1]⟩
  have hpx : (fun c => decide (c = ch)) x = false := decide_eq_false hx
  have hpy : (fun c => decide (c = ch)) y = false := decide_eq_false hy
  have hpch : (fun c => decide (c = ch)) ch = true := decide_eq_true rfl
  have hdrop1 : ((x :: m1) ++ [ch]).dropWhile (fun c => decide (c = ch))
      = (x :: m1) ++ [ch] := by
    rw [List.cons_append]
    exact dropWhile_cons_false hpx
  have hdrop2 : (x :: m1).dropWhile (fun c => decide (c = ch)) = x :: m1 :=
    dropWhile_cons_false hpx
  have hrev1 : ((x :: m1) ++ [ch]).reverse = ch :: (x :: m1).reverse := by
    simp [List.reverse_append]
  have hdropr : ((x :: m1).reverse).dropWhile (fun c => decide (c = ch))
      = (x :: m1).reverse := by
    rw [hr]
    exact dropWhile_cons_false hpy
  refine ⟨?_, ?_, ?_, ?_⟩
  · unfold trimCharL trimBothBy
    rw [List.cons_append ch (x :: m1) [ch], dropWhile_cons_true hpch, hdrop1, hrev1,
        dropWhile_cons_true hpch, hdropr, List.reverse_reverse]
  · unfold trimCharL trimBothBy
    rw [hdrop1, hrev1, dropWhile_cons_true hpch, hdropr, List.reverse_reverse]
  · unfold trimCharL trimBothBy
    rw [dropWhile_cons_true hpch, hdrop2, hdropr, List.reverse_reverse]
  · unfold trimCharL trimBothBy
    rw [hdrop2, hdropr, List.reverse_reverse]

theorem splitOnCharL_no (sep : Char) {l : List Char} (h : sep ∉ l) :
    splitOnCharL sep l = [l] := by
  induction l with
  | nil => rfl
  | cons c cs ih =>
    have hc : ¬ c = sep := fun he => h (he ▸ List.mem_cons_self c cs)
    have ih' := ih (fun hm => h (List.mem_cons_of_mem c hm))
    simp [splitOnCharL, hc, ih']

theorem splitOnCharL_append (sep : Char) {a : List Char} (b : List Char) (h : sep ∉ a) :
    splitOnCharL sep (a ++ sep :: b) = a :: splitOnCharL sep b := by
  induction a with
  | nil => simp [splitOnCharL]
  | cons c cs ih =>
    have hc : ¬ c = sep := fun he => h (he ▸ List.mem_cons_self c cs)
    have ih' := ih (fun hm => h (List.mem_cons_of_mem c hm))
    simp [splitOnCharL, hc, ih']

theorem hasPrefixB_false_of_mem {p l : List Char} {ch : Char}
    (hp : ch ∈ p) (hl : ch ∉ l) : hasPrefixB p l = false := by
  by_contra hcon
  have htrue : p.isPrefixOf l = true := by
    revert hcon
    unfold hasPrefixB
    cases p.isPrefixOf l <;> simp
  have hpre : p <+: l := List.isPrefixOf_iff_prefix.1 htrue
  exact hl (hpre.sublist.subset hp)

theorem trimPrefixL_no {p l : List Char} (h : hasPrefixB p l = false) :
    trimPrefixL p l = l := by
  simp [trimPrefixL, h]


theorem applyCommentStmt_column_of (target comment tn fn : String) (reg : Reg)
    (c' t' : String) (rest : List String)
    (hcont : containsChar '.' (trimQuotes target) = true)
    (hsp : (splitOnCharStr '.' (trimQuotes target)).reverse = c' :: t' :: rest)
    (htn : trimQuotes (trimPrefixStr "public." t') = tn)
    (hfn : trimQuotes c' = fn) :
    applyCommentStmt target comment reg = applyColumnComment tn fn comment reg := by
  have hne : ¬ (containsChar '.' (trimQuotes target) = false) := by
    rw [hcont]; decide
  simp only [applyCommentStmt]
  rw [if_neg hne, hsp]
  show applyColumnComment (trimQuotes (trimPrefixStr "public." t')) (trimQuotes c')
      comment reg = applyColumnComment tn fn comment reg
  rw [htn, hfn]

theorem applyCommentStmt_table_of (target comment tn : String) (reg : Reg)
    (hcont : containsChar '.' (trimQuotes target) = false)
    (htn : trimPrefixStr "public." (trimQuotes target) = tn) :
    applyCommentStmt target comment reg = applyTableComment tn comment reg := by
  simp only [applyCommentStmt]
  rw [if_pos hcont, htn]

theorem columnTarget_bare (t c : String)
    (ht : '.' ∉ t.data) (htq : '"' ∉ t.data) (hc : '.' ∉ c.data) (hcq : '"' ∉ c.data) :
    containsChar '.' (trimQuotes (t ++ "." ++ c)) = true
  ∧ (splitOnCharStr '.' (trimQuotes (t ++ "." ++ c))).reverse = [c, t]
  ∧ trimQuotes (trimPrefixStr "public." t) = t
  ∧ trimQuotes c = c := by
  have hdata : (t ++ "." ++ c).data = t.data ++ '.' :: c.data := by
    simp [String.data_append]
  have hnq : '"' ∉ t.data ++ '.' :: c.data := by
    intro hm
    rcases List.mem_append.1 hm with h | h
    · exact htq h
    · rcases List.mem_cons.1 h with h | h
      · exact absurd h (by decide)
      · exact hcq h
  have htrim : trimQuotes (t ++ "." ++ c) = ⟨t.data ++ '.' :: c.data⟩ := by
    unfold trimQuotes
    rw [hdata, trimCharL_id hnq]
  refine ⟨?_, ?_, ?_, ?_⟩
  · rw [htrim]
    unfold containsChar
    show decide (('.' : Char) ∈ t.data ++ '.' :: c.data) = true
    simp
  · rw [htrim]
    unfold splitOnCharStr
    show ((splitOnCharL '.' (t.data ++ '.' :: c.data)).map String.mk).reverse = [c, t]
    rw [splitOnCharL_append '.' c.data ht, splitOnCharL_no '.' hc]
    rfl
  · unfold trimPrefixStr
    rw [trimPrefixL_no (hasPrefixB_false_of_mem (by decide) ht)]
    unfold trimQuotes
    show (⟨trimCharL '"' t.data⟩ : String) = t
    rw [trimCharL_id htq]
  · unfold trimQuotes
    rw [trimCharL_id hcq]

theorem columnTarget_quoted (t c : String)
    (ht : '.' ∉ t.data) (htq : '"' ∉ t.data) (hc : '.' ∉ c.data) (hcq : '"' ∉ c.data)
    (htne : t.data ≠ []) (hcne : c.data ≠ []) :
    containsChar '.' (trimQuotes ("\"" ++ t ++ "\".\"" ++ c ++ "\"")) = true
  ∧ (splitOnCharStr '.' (trimQuotes ("\"" ++ t ++ "\".\"" ++ c ++ "\""))).reverse
      = [⟨'"' :: c.data⟩, ⟨t.data ++ ['"']⟩]
  ∧ trimQuotes (trimPrefixStr "public." ⟨t.data ++ ['"']⟩) = t
  ∧ trimQuotes ⟨'"' :: c.data⟩ = c := by
  obtain ⟨tx, ts, htx⟩ : ∃ a l, t.data = a :: l := by
    cases hdt : t.data with
    | nil => exact absurd hdt htne
    | cons a as => exact ⟨a, as, rfl⟩
  obtain ⟨cx, cs, hcx⟩ : ∃ a l, c.data = a :: l := by
    cases hdc : c.data with
    | nil => exact absurd hdc hcne
    | cons a as => exact ⟨a, as, rfl⟩
  obtain ⟨ty, hty, htym⟩ := exists_getLast_mem htne
  obtain ⟨cy, hcy, hcym⟩ := exists_getLast_mem hcne
  have htxq : tx ≠ '"' := by
    intro he
    subst he
    exact htq (by rw [htx]; exact List.mem_cons_self _ _)
  have hcxq : cx ≠ '"' := by
    intro he
    subst he
    exact hcq (by rw [hcx]; exact List.mem_cons_self _ _)
  have htyq : ty ≠ '"' := fun he => htq (he ▸ htym)
  have hcyq : cy ≠ '"' := fun he => hcq (he ▸ hcym)
  have hdata : ("\"" ++ t ++ "\".\"" ++ c ++ "\"").data
      = ('"' :: (t.data ++ '"' :: '.' :: '"' :: c.data)) ++ ['"'] := by
    simp [String.data_append]
  have hhead : (t.data ++ '"' :: '.' :: '"' :: c.data).head? = some tx := by
    rw [htx]; rfl
  have hlast : (t.data ++ '"' :: '.' :: '"' :: c.data).getLast? = some cy := by
    rw [show t.data ++ '"' :: '.' :: '"' :: c.data
        = (t.data ++ ['"', '.', '"']) ++ c.data by simp]
    rw [getLast?_append_right hcne]
    exact hcy
  have hstrip := trimCharL_strips hhead htxq hlast hcyq
  have htrim : trimQuotes ("\"" ++ t ++ "\".\"" ++ c ++ "\"")
      = ⟨t.data ++ '"' :: '.' :: '"' :: c.data⟩ := by
    unfold trimQuotes
    rw [hdata, hstrip.1]
  have hnd1 : ('.' : Char) ∉ t.data ++ ['"'] := by
    intro hm
    rcases List.mem_append.1 hm with h | h
    · exact ht h
    · exact absurd h (by decide)
  have hnd2 : ('.' : Char) ∉ '"' :: c.data := by
    intro hm
    rcases List.mem_cons.1 hm with h | h
    · exact absurd h (by decide)
    · exact hc h
  have hsplit : splitOnCharL '.' (t.data ++ '"' :: '.' :: '"' :: c.data)
      = [t.data ++ ['"'], '"' :: c.data] := by
    rw [show t.data ++ '"' :: '.' :: '"' :: c.data
        = (t.data ++ ['"']) ++ '.' :: ('"' :: c.data) by simp]
    rw [splitOnCharL_append '.' ('"' :: c.data) hnd1, splitOnCharL_no '.' hnd2]
  have hstrip2 := trimCharL_strips (show t.data.head? = some tx by rw [htx]; rfl)
    htxq hty htyq
  have hstrip3 := trimCharL_strips (show c.data.head? = some cx by rw [hcx]; rfl)
    hcxq hcy hcyq
  refine ⟨?_, ?_, ?_, ?_⟩
  · rw [htrim]
    unfold containsChar
    show decide (('.' : Char) ∈ t.data ++ '"' :: '.' :: '"' :: c.data) = true
    simp
  · rw [htrim]
    unfold splitOnCharStr
    show ((splitOnCharL '.' (t.data ++ '"' :: '.' :: '"' :: c.data)).map String.mk).reverse
        = [⟨'"' :: c.data⟩, ⟨t.data ++ ['"']⟩]
    rw [hsplit]
    rfl
  · unfold trimPrefixStr
    rw [trimPrefixL_no (hasPrefixB_false_of_mem (by decide) hnd1)]
    unfold trimQuotes
    show (⟨trimCharL '"' (t.data ++ ['"'])⟩ : String) = t
    rw [hstrip2.2.1]
  · unfold trimQuotes
    show (⟨trimCharL '"' ('"' :: c.data)⟩ : String) = c
    rw [hstrip3.2.2.1]

theorem columnTarget_quoted_schema (t c : String)
    (ht : '.' ∉ t.data) (htq : '"' ∉ t.data) (hc : '.' ∉ c.data) (hcq : '"' ∉ c.data)
    (htne : t.data ≠ []) (hcne : c.data ≠ []) :
    containsChar '.' (trimQuotes ("\"public\".\"" ++ t ++ "\".\"" ++ c ++ "\"")) = true
  ∧ (splitOnCharStr '.' (trimQuotes ("\"public\".\"" ++ t ++ "\".\"" ++ c ++ "\""))).reverse
      = [⟨'"' :: c.data⟩, ⟨('"' :: t.data) ++ ['"']⟩, ⟨['p', 'u', 'b', 'l', 'i', 'c', '"']⟩]
  ∧ trimQuotes (trimPrefixStr "public." ⟨('"' :: t.data) ++ ['"']⟩) = t
  ∧ trimQuotes ⟨'"' :: c.data⟩ = c := by
  obtain ⟨tx, ts, htx⟩ : ∃ a l, t.data = a :: l := by
    cases hdt : t.data with
    | nil => exact absurd hdt htne
    | cons a as => exact ⟨a, as, rfl⟩
  obtain ⟨cx, cs, hcx⟩ : ∃ a l, c.data = a :: l := by
    cases hdc : c.data with
    | nil => exact absurd hdc hcne
    | cons a as => exact ⟨a, as, rfl⟩
  obtain ⟨ty, hty, htym⟩ := exists_getLast_mem htne
  obtain ⟨cy, hcy, hcym⟩ := exists_getLast_mem hcne
  have htxq : tx ≠ '"' := by
    intro he
    subst he
    exact htq (by rw [htx]; exact List.mem_cons_self _ _)
  have hcxq : cx ≠ '"' := by
    intro he
    subst he
    exact hcq (by rw [hcx]; exact List.mem_cons_self _ _)
  have htyq : ty ≠ '"' := fun he => htq (he ▸ htym)
  have hcyq : cy ≠ '"' := fun he => hcq (he ▸ hcym)
  have hdata : ("\"public\".\"" ++ t ++ "\".\"" ++ c ++ "\"").data
      = ('"' :: ('p' :: 'u' :: 'b' :: 'l' :: 'i' :: 'c' :: '"' :: '.' :: '"' ::
          (t.data ++ '"' :: '.' :: '"' :: c.data))) ++ ['"'] := by
    simp [String.data_append]
  have hlast : ('p' :: 'u' :: 'b' :: 'l' :: 'i' :: 'c' :: '"' :: '.' :: '"' ::
      (t.data ++ '"' :: '.' :: '"' :: c.data)).getLast? = some cy := by
    rw [show 'p' :: 'u' :: 'b' :: 'l' :: 'i' :: 'c' :: '"' :: '.' :: '"' ::
          (t.data ++ '"' :: '.' :: '"' :: c.data)
        = (('p' :: 'u' :: 'b' :: 'l' :: 'i' :: 'c' :: '"' :: '.' :: '"' :: t.data)
            ++ ['"', '.', '"']) ++ c.data by simp]
    rw [getLast?_append_right hcne]
    exact hcy
  have hstrip := trimCharL_strips
    (show ('p' :: 'u' :: 'b' :: 'l' :: 'i' :: 'c' :: '"' :: '.' :: '"' ::
        (t.data ++ '"' :: '.' :: '"' :: c.data)).head? = some 'p' from rfl)
    (by decide) hlast hcyq
  have htrim : trimQuotes ("\"public\".\"" ++ t ++ "\".\"" ++ c ++ "\"")
      = ⟨'p' :: 'u' :: 'b' :: 'l' :: 'i' :: 'c' :: '"' :: '.' :: '"' ::
          (t.data ++ '"' :: '.' :: '"' :: c.data)⟩ := by
    unfold trimQuotes
    rw [hdata, hstrip.1]
  have hnd1 : ('.' : Char) ∉ ['p', 'u', 'b', 'l', 'i', 'c', '"'] := by decide
  have hnd2 : ('.' : Char) ∉ ('"' :: t.data) ++ ['"'] := by
    intro hm
    rcases List.mem_append.1 hm with h | h
    · rcases List.mem_cons.1 h with h | h
      · exact absurd h (by decide)
      · exact ht h
    · exact absurd h (by decide)
  have hnd3 : ('.' : Char) ∉ '"' :: c.data := by
    intro hm
    rcases List.mem_cons.1 hm with h | h
    · exact absurd h (by decide)
    · exact hc h
  have hsplit : splitOnCharL '.' ('p' :: 'u' :: 'b' :: 'l' :: 'i' :: 'c' :: '"' :: '.' ::
      '"' :: (t.data ++ '"' :: '.' :: '"' :: c.data))
      = [['p', 'u', 'b', 'l', 'i', 'c', '"'], ('"' :: t.data) ++ ['"'], '"' :: c.data] := by
    rw [show 'p' :: 'u' :: 'b' :: 'l' :: 'i' :: 'c' :: '"' :: '.' :: '"' ::
          (t.data ++ '"' :: '.' :: '"' :: c.data)
        = ['p', 'u', 'b', 'l', 'i', 'c', '"'] ++ '.' ::
            ((('"' :: t.data) ++ ['"']) ++ '.' :: ('"' :: c.data)) by simp]
    rw [splitOnCharL_append '.' ((('"' :: t.data) ++ ['"']) ++ '.' :: ('"' :: c.data)) hnd1]
    rw [splitOnCharL_append '.' ('"' :: c.data) hnd2, splitOnCharL_no '.' hnd3]
  have hstrip2 := trimCharL_strips (show t.data.head? = some tx by rw [htx]; rfl)
    htxq hty htyq
  have hstrip3 := trimCharL_strips (show c.data.head? = some cx by rw [hcx]; rfl)
    hcxq hcy hcyq
  refine ⟨?_, ?_, ?_, ?_⟩
  · rw [htrim]
    unfold containsChar
    show decide (('.' : Char) ∈ 'p' :: 'u' :: 'b' :: 'l' :: 'i' :: 'c' :: '"' :: '.' ::
        '"' :: (t.data ++ '"' :: '.' :: '"' :: c.data)) = true
    simp
  · rw [htrim]
    unfold splitOnCharStr
    show ((splitOnCharL '.' ('p' :: 'u' :: 'b' :: 'l' :: 'i' :: 'c' :: '"' :: '.' :: '"' ::
        (t.data ++ '"' :: '.' :: '"' :: c.data))).map String.mk).reverse
        = [⟨'"' :: c.data⟩, ⟨('"' :: t.data) ++ ['"']⟩, ⟨['p', 'u', 'b', 'l', 'i', 'c', '"']⟩]
    rw [hsplit]
    rfl
  · unfold trimPrefixStr
    rw [trimPrefixL_no (hasPrefixB_false_of_mem (show ('.' : Char) ∈ "public.".data by decide) hnd2)]
    unfold trimQuotes
    show (⟨trimCharL '"' (('"' :: t.data) ++ ['"'])⟩ : String) = t
    rw [show ('"' :: t.data) ++ ['"'] = ('"' :: t.data) ++ ['"'] from rfl, hstrip2.1]
  · unfold trimQuotes
    show (⟨trimCharL '"' ('"' :: c.data)⟩ : String) = c
    rw [hstrip3.2.2.1]


/-- C1 counterexample: the claim fails in the "before" direction. A
`COMMENT ON COLUMN t.c` processed on an empty registry (before the
`CREATE TABLE` for `t`) is a silent no-op, and after the `CREATE TABLE`
is processed the column `c` has an empty comment, not the one the
statement carried. -/
theorem comment_before_create_drops_column_comment :
    applyCommentStmt "t.c" "x" [] = ([] : Reg)
  ∧ regLookup (applyCreateTable "t" "\"c\" bigint" (applyCommentStmt "t.c" "x" [])) "t"
      = some ⟨"t", "", [⟨"c", "bigint", ""⟩]⟩ :=
  ⟨rfl, rfl⟩

/-- C1 (amended): a `COMMENT ON COLUMN` statement naming table `t` and
column `c` (bare, quoted, or schema-qualified and quoted; an unquoted
schema-qualified target reaches this code as the bare capture `t.c`)
updates exactly the first column named `c` of table `t` and no other
column and no other table — but only when it is processed after the
`CREATE TABLE` for `t`; processed before, the registry has no entry for
`t` and the statement is a silent no-op. -/
theorem comment_on_column_updates_exactly_target (t c comment : String) (reg : Reg)
    (ht : '.' ∉ t.data) (htq : '"' ∉ t.data) (hc : '.' ∉ c.data) (hcq : '"' ∉ c.data)
    (htne : t.data ≠ []) (hcne : c.data ≠ []) :
    (∀ target ∈ columnTargets t c,
      (regLookup reg t = none → applyCommentStmt target comment reg = reg)
      ∧ (∀ tbl, regLookup reg t = some tbl →
          regLookup (applyCommentStmt target comment reg) t
            = some { tbl with Fields := setFieldComment tbl.Fields c comment }
          ∧ (∀ u, u ≠ t →
              regLookup (applyCommentStmt target comment reg) u = regLookup reg u)))
  ∧ (∀ (pre : List FieldComment) (f : FieldComment) (post : List FieldComment),
      (∀ g ∈ pre, g.FieldName ≠ c) → f.FieldName = c →
      setFieldComment (pre ++ f :: post) c comment
        = pre ++ { f with Comment := comment } :: post)
  ∧ (∀ fs : List FieldComment, (∀ g ∈ fs, g.FieldName ≠ c) →
      setFieldComment fs c comment = fs) := by
  have main : ∀ (target c' t' : String) (rest : List String),
      containsChar '.' (trimQuotes target) = true →
      (splitOnCharStr '.' (trimQuotes target)).reverse = c' :: t' :: rest →
      trimQuotes (trimPrefixStr "public." t') = t →
      trimQuotes c' = c →
      ((regLookup reg t = none → applyCommentStmt target comment reg = reg)
       ∧ (∀ tbl, regLookup reg t = some tbl →
           regLookup (applyCommentStmt target comment reg) t
             = some { tbl with Fields := setFieldComment tbl.Fields c comment }
           ∧ (∀ u, u ≠ t →
               regLookup (applyCommentStmt target comment reg) u = regLookup reg u))) := by
    intro target c' t' rest hcont hsp htn hfn
    have happ := applyCommentStmt_column_of target comment t c reg c' t' rest hcont hsp htn hfn
    constructor
    · intro hnone
      rw [happ]
      unfold applyColumnComment
      rw [hnone]
    · intro tbl htbl
      rw [happ]
      unfold applyColumnComment
      rw [htbl]
      exact ⟨regLookup_regInsert_self reg t _,
             fun u hu => regLookup_regInsert_ne reg t u _ hu⟩
  refine ⟨?_, setFieldComment_first_match c comment, setFieldComment_no_match c comment⟩
  intro target htarget
  have hforms : target = t ++ "." ++ c
      ∨ target = "\"" ++ t ++ "\".\"" ++ c ++ "\""
      ∨ target = "\"public\".\"" ++ t ++ "\".\"" ++ c ++ "\"" := by
    simpa [columnTargets] using htarget
  rcases hforms with rfl | rfl | rfl
  · obtain ⟨h1, h2, h3, h4⟩ := columnTarget_bare t c ht htq hc hcq
    exact main _ c t [] h1 h2 h3 h4
  · obtain ⟨h1, h2, h3, h4⟩ := columnTarget_quoted t c ht htq hc hcq htne hcne
    exact main _ ⟨'"' :: c.data⟩ ⟨t.data ++ ['"']⟩ [] h1 h2 h3 h4
  · obtain ⟨h1, h2, h3, h4⟩ := columnTarget_quoted_schema t c ht htq hc hcq htne hcne
    exact main _ ⟨'"' :: c.data⟩ ⟨('"' :: t.data) ++ ['"']⟩
      [⟨['p', 'u', 'b', 'l', 'i', 'c', '"']⟩] h1 h2 h3 h4

/-- C1 witness: the fully quoted schema-qualified form updates exactly
column `c` of the registered table `t`. -/
theorem comment_on_column_updates_exactly_target_witness :
    regLookup (applyCommentStmt "\"public\".\"t\".\"c\"" "x"
        [("t", ⟨"t", "", [⟨"c", "bigint", ""⟩, ⟨"d", "text", ""⟩]⟩)]) "t"
      = some ⟨"t", "", [⟨"c", "bigint", "x"⟩, ⟨"d", "text", ""⟩]⟩ :=
  (((comment_on_column_updates_exactly_target "t" "c" "x"
      [("t", ⟨"t", "", [⟨"c", "bigint", ""⟩, ⟨"d", "text", ""⟩]⟩)]
      (by decide) (by decide) (by decide) (by decide) (by decide) (by decide)).1
      "\"public\".\"t\".\"c\"" (by decide)).2
      ⟨"t", "", [⟨"c", "bigint", ""⟩, ⟨"d", "text", ""⟩]⟩ rfl).1

/-- C2 counterexample: the claim fails. A `COMMENT ON TABLE t` processed
first creates a placeholder entry holding the comment, but the later
`CREATE TABLE` replaces the entry wholesale: afterwards the entry holds
the parsed columns and an empty comment — the recorded table comment is
lost, not preserved. -/
theorem create_table_replaces_placeholder_entry :
    regLookup (applyCommentStmt "t" "x" []) "t" = some ⟨"t", "x", []⟩
  ∧ regLookup (applyCreateTable "t" "\"c\" bigint" (applyCommentStmt "t" "x" [])) "t"
      = some ⟨"t", "", [⟨"c", "bigint", ""⟩]⟩ :=
  ⟨rfl, rfl⟩

/-- C2 (amended): a `COMMENT ON TABLE` sighting for an unknown name
creates a placeholder entry holding the comment with empty fields, and a
sighting for a known name updates the entry in place (comment set, fields
kept); but a `CREATE TABLE` sighting stores a fresh entry whose comment is
empty and whose fields are the parsed columns, replacing (not updating)
any existing entry — so a table comment survives only when it arrives
after the `CREATE TABLE`, not before. -/
theorem table_comment_lifecycle (t body comment : String) (reg : Reg)
    (ht : '.' ∉ t.data) (htq : '"' ∉ t.data) :
    (regLookup reg t = none →
      regLookup (applyCommentStmt t comment reg) t
        = some ⟨t, comment, []⟩)
  ∧ (regLookup (applyCreateTable t body reg) t
      = some ⟨t, "", buildFields (splitFields body)⟩)
  ∧ (∀ tbl, regLookup reg t = some tbl →
      regLookup (applyCommentStmt t comment reg) t = some { tbl with Comment := comment }) := by
  have htrim : trimQuotes t = t := by
    unfold trimQuotes
    rw [trimCharL_id htq]
  have hcontf : containsChar '.' (trimQuotes t) = false := by
    rw [htrim]
    exact decide_eq_false ht
  have hpf : trimPrefixStr "public." (trimQuotes t) = t := by
    rw [htrim]
    unfold trimPrefixStr
    rw [trimPrefixL_no (hasPrefixB_false_of_mem (show ('.' : Char) ∈ "public.".data by decide) ht)]
  have happ := applyCommentStmt_table_of t comment t reg hcontf hpf
  have hnorm : normalizeTableName t = t := by
    unfold normalizeTableName
    rw [htrim]
    unfold trimPrefixStr
    rw [trimPrefixL_no (hasPrefixB_false_of_mem
      (show ('.' : Char) ∈ "public.".data by decide) ht)]
  refine ⟨?_, ?_, ?_⟩
  · intro hnone
    rw [happ]
    unfold applyTableComment
    rw [hnone]
    exact regLookup_regInsert_self reg t _
  · unfold applyCreateTable
    rw [hnorm]
    exact regLookup_regInsert_self reg t _
  · intro tbl htbl
    rw [happ]
    unfold applyTableComment
    rw [htbl]
    exact regLookup_regInsert_self reg t _

/-- C2 witness: placeholder creation, replacement by `CREATE TABLE`, and
in-place update in the other order, at a concrete table. -/
theorem table_comment_lifecycle_witness :
    regLookup (applyCommentStmt "users" "x" []) "users" = some ⟨"users", "x", []⟩
  ∧ regLookup (applyCreateTable "users" "\"id\" bigint" []) "users"
      = some ⟨"users", "", buildFields (splitFields "\"id\" bigint")⟩ :=
  ⟨(table_comment_lifecycle "users" "\"id\" bigint" "x" []
      (by decide) (by decide)).1 rfl,
   (table_comment_lifecycle "users" "\"id\" bigint" "x" []
      (by decide) (by decide)).2.1⟩


end Docgen
